import Mathlib

/-!
Verification of the SproutCore property-observing runtime specification.

The repository ships a test for `SC.objectForPropertyPath`, the CoreQuery
DOM-query adapter (`frameworks/foundation/system/core_query.js`) and a
designer metadata file.  The path resolver, global root registry and
observer/binding engine are described by the specification but their
implementation files are not part of the reviewed sources, so those
components are modelled from the specification text (sections 3, 4.1,
4.3, 4.4, 5 and 7); the definitions carry doc comments marking this.
The CoreQuery claims are embedded directly from `core_query.js`.
-/

set_option maxRecDepth 4000

namespace SCRuntime

/-- Modelled from the spec: values flowing through the object graph of the
property-observing core (the resolver and binding-engine sources are not in
the reviewed tree).  `vObj` references an entity implementing the Accessor
Protocol; `vPrim` is a plain value readable as a terminal but not
traversable; `vNull`/`vUndefined` are the absent values. -/
inductive Value where
  | vUndefined
  | vNull
  | vPrim (n : Int)
  | vObj (id : Nat)
deriving DecidableEq, Repr

/-- Modelled from the spec: the store of Accessor-Protocol objects.  The
heap gives, for each object identity and property name, the property's
current value (`vUndefined` when the property was never set). -/
abbrev Heap := Nat → String → Value

/-- Whether a value implements the Accessor Protocol (only object
references do). -/
def Value.isObj : Value → Bool
  | .vObj _ => true
  | _ => false

/-- Modelled from the spec: the Global Root Registry, a mapping from
top-level names to root objects (the registry source is not in the
reviewed tree). -/
abbrev Registry := List (String × Value)

/-- Modelled from the spec: `lookup` of the Global Root Registry, restricted
to the single top-level name; it is a pure function, which embeds the
requirement that lookups are side-effect free. -/
def lookupName (reg : Registry) (name : String) : Option Value :=
  (reg.find? (fun p => p.1 == name)).map Prod.snd

/-- Modelled from the spec: registry `lookup` in state-passing form,
returning both the answer and the (unchanged) registry state. -/
def lookupSt (reg : Registry) (name : String) : Option Value × Registry :=
  (lookupName reg name, reg)

/-- Modelled from the spec: `register` overwrites any prior mapping for
`name` without requiring prior removal. -/
def registerName (reg : Registry) (name : String) (v : Value) : Registry :=
  (name, v) :: reg.filter (fun p => p.1 != name)

/-- Modelled from the spec: a `ResolutionResult` is either a resolved value
paired with the object owning the last segment, or one of the failure
outcomes of section 7's error taxonomy. -/
inductive ResolutionResult where
  | ok (value : Value) (owner : Option Value)
  | unresolvedRoot
  | brokenChain
  | notTraversable
deriving DecidableEq, Repr

/-- Modelled from the spec: the per-segment walk of the resolver (section
4.1).  A `null`/`undefined` owner with segments remaining fails with
`BrokenChain`; an owner without the Accessor Protocol with segments
remaining fails with `NotTraversable`; otherwise the named property is
fetched and the walk continues; on exhausting the segments the last value
and its owner are returned. -/
def walk (h : Heap) (owner : Option Value) (cur : Value) : List String → ResolutionResult
  | [] => .ok cur owner
  | seg :: rest =>
    match cur with
    | .vNull => .brokenChain
    | .vUndefined => .brokenChain
    | .vPrim _ => .notTraversable
    | .vObj id => walk h (some (.vObj id)) (h id seg) rest

/-- Modelled from the spec: full resolution (section 4.1).  `root = none`
is the sentinel meaning "no explicit root supplied": the first segment is
then looked up in the Global Root Registry, failing with `UnresolvedRoot`
when absent.  An empty path resolves to the root itself. -/
def resolve (reg : Registry) (h : Heap) (path : List String) (root : Option Value) :
    ResolutionResult :=
  match root with
  | some r => walk h none r path
  | none =>
    match path with
    | [] => .ok .vUndefined none
    | first :: rest =>
      match lookupName reg first with
      | none => .unresolvedRoot
      | some v => walk h none v rest

/-- The collapse of a resolution outcome to a terminal value: the non-fatal
failures (`BrokenChain`, `NotTraversable`, `UnresolvedRoot`) all yield the
absent value rather than raising. -/
def resValue : ResolutionResult → Value
  | .ok v _ => v
  | _ => .vUndefined

/-- Terminal value of a path, with failures collapsed to absent. -/
def resolveValue (reg : Registry) (h : Heap) (path : List String) (root : Option Value) :
    Value :=
  resValue (resolve reg h path root)

/-- The walk's terminal value with failures collapsed, in direct recursive
form (owner bookkeeping dropped). -/
def walkValue (h : Heap) (cur : Value) : List String → Value
  | [] => cur
  | seg :: rest =>
    match cur with
    | .vObj id => walkValue h (h id seg) rest
    | _ => .vUndefined

/-! ### Observer/Binding Engine (spec section 4.4) -/

/-- Modelled from the spec: the per-step listener collection of binding
activation (section 4.4 step 1).  Walking the path from `cur`, every owner
implementing the Accessor Protocol is registered as a listener for the next
segment's name; the walk stops at the first non-traversable link. -/
def collectPairs (h : Heap) (cur : Value) : List String → List (Value × String)
  | [] => []
  | seg :: rest =>
    match cur with
    | .vObj id => (Value.vObj id, seg) :: collectPairs h (h id seg) rest
    | _ => []

/-- Modelled from the spec: the listener set a binding holds for a path and
root.  With the registry sentinel as root the first segment is read from
the registry (no listener is held on the registry itself, section 7). -/
def collectBindingPairs (reg : Registry) (h : Heap) (path : List String)
    (root : Option Value) : List (Value × String) :=
  match root with
  | some r => collectPairs h r path
  | none =>
    match path with
    | [] => []
    | first :: rest =>
      match lookupName reg first with
      | none => []
      | some v => collectPairs h v rest

/-- The specification-side characterisation of the listened-object set: the
non-null Accessor-Protocol objects obtained by resolving each proper prefix
of the path against the current root (section 3's invariant). -/
def specListened (reg : Registry) (h : Heap) (path : List String)
    (root : Option Value) : List Value :=
  ((List.range path.length).map (fun k => resolveValue reg h (path.take k) root)).filter
    Value.isObj

/-- Modelled from the spec: the state of one active binding — its parsed
path (never re-parsed), its root, the listener registrations it currently
holds, its dirty flag and whether it is still active. -/
structure Binding where
  path : List String
  root : Option Value
  regs : List (Value × String)
  dirty : Bool
  active : Bool
deriving DecidableEq, Repr

/-- Modelled from the spec: the engine state — registry, heap, the bindings
keyed by identifier, the pending-flush queue in first-marked-dirty order, a
fresh-identifier counter (reactivation requires a fresh registration), and
the log of notifications delivered to targets. -/
structure Engine where
  reg : Registry
  heap : Heap
  bindings : List (Nat × Binding)
  pending : List Nat
  nextId : Nat
  delivered : List (Nat × Value)

/-- Point update of the heap at one object identity and property name. -/
def hUpdate (h : Heap) (objId : Nat) (name : String) (v : Value) : Heap :=
  fun i n => if i = objId ∧ n = name then v else h i n

/-- Whether a binding holds a listener on the given object for the given
property name (so a mutation there affects it); inactive bindings are
never affected. -/
def affectedBy (objId : Nat) (name : String) (b : Binding) : Bool :=
  b.active && decide ((Value.vObj objId, name) ∈ b.regs)

/-- Modelled from the spec: binding activation (section 4.4 step 1) — the
path is resolved once and listeners registered on every traversable
intermediate object; a fresh identifier is allocated. -/
def activate (e : Engine) (path : List String) (root : Option Value) : Engine :=
  { e with
    bindings := e.bindings ++
      [(e.nextId,
        { path := path, root := root,
          regs := collectBindingPairs e.reg e.heap path root,
          dirty := false, active := true })],
    nextId := e.nextId + 1 }

/-- Modelled from the spec: a property mutation (section 4.4 step 2).  The
heap is updated; every affected binding drops its stale listeners,
re-resolves its listener set against the new heap and is marked dirty; a
binding that was not already dirty is enqueued for the end-of-turn flush
(enqueuing an already-dirty binding is a no-op). -/
def setProp (e : Engine) (objId : Nat) (name : String) (v : Value) : Engine :=
  let h' := hUpdate e.heap objId name v
  { e with
    heap := h',
    bindings := e.bindings.map (fun p =>
      if affectedBy objId name p.2 then
        (p.1, { p.2 with regs := collectBindingPairs e.reg h' p.2.path p.2.root,
                         dirty := true })
      else p),
    pending := e.pending ++
      ((e.bindings.filter (fun p => affectedBy objId name p.2 && !p.2.dirty)).map
        Prod.fst) }

/-- Modelled from the spec: binding deactivation (section 4.4 step 4) —
every held listener is unregistered, the registration set becomes empty,
and the binding is removed from the pending-flush set. -/
def deactivate (e : Engine) (bid : Nat) : Engine :=
  { e with
    bindings := e.bindings.map (fun p =>
      if p.1 = bid then (p.1, { p.2 with regs := [], dirty := false, active := false })
      else p),
    pending := e.pending.filter (fun i => i ≠ bid) }

/-- Clear the dirty flag of one binding (done as it is flushed). -/
def clearDirty (e : Engine) (bid : Nat) : Engine :=
  { e with
    bindings := e.bindings.map (fun p =>
      if p.1 = bid then (p.1, { p.2 with dirty := false }) else p) }

/-- Modelled from the spec: the end-of-turn flush pass (section 4.4 step 3,
section 5).  The pending queue is walked in first-marked order; each
still-active dirty binding receives its current terminal value exactly
once and its dirty flag is cleared; `cb` models the engine effects a
target callback may have during its own flush — deactivating any set of
bindings mid-cycle; deactivated bindings that had been enqueued are
skipped.  Returns the final state and the deliveries of this flush. -/
def flushAux (cb : Nat → List Nat) : Engine → List Nat → Engine × List (Nat × Value)
  | e, [] => (e, [])
  | e, bid :: rest =>
    match e.bindings.find? (fun p => p.1 == bid) with
    | none => flushAux cb e rest
    | some p =>
      if p.2.active && p.2.dirty then
        let v := resolveValue e.reg e.heap p.2.path p.2.root
        let e1 := clearDirty e bid
        let e2 := (cb bid).foldl deactivate e1
        let r := flushAux cb e2 rest
        (r.1, (bid, v) :: r.2)
      else flushAux cb e rest

/-- Deliveries performed by flushing the pending queue of `e`. -/
def flushDeliveries (cb : Nat → List Nat) (e : Engine) : List (Nat × Value) :=
  (flushAux cb { e with pending := [] } e.pending).2

/-- Modelled from the spec: the complete end-of-turn flush — the pending
set is consumed, the dirty bindings are delivered once each and the
deliveries appended to the log. -/
def flush (cb : Nat → List Nat) (e : Engine) : Engine :=
  let r := flushAux cb { e with pending := [] } e.pending
  { r.1 with delivered := r.1.delivered ++ r.2 }

/-- Modelled from the spec: the operations a turn is made of — property
mutations, binding activation and deactivation, and the end-of-turn
flush. -/
inductive Op where
  | set (objId : Nat) (name : String) (v : Value)
  | act (path : List String) (root : Option Value)
  | deact (bid : Nat)
  | doFlush (cb : Nat → List Nat)

/-- Apply one engine operation. -/
def applyOp : Op → Engine → Engine
  | .set objId name v, e => setProp e objId name v
  | .act path root, e => activate e path root
  | .deact bid, e => deactivate e bid
  | .doFlush cb, e => flush cb e

/-- Run a sequence of engine operations. -/
def runOps (ops : List Op) (e : Engine) : Engine :=
  ops.foldl (fun e op => applyOp op e) e

/-- Well-formedness of an engine state: binding identifiers are distinct
and below the fresh counter, the pending queue has no duplicates, and
every pending identifier belongs to a dirty binding. -/
abbrev WF (e : Engine) : Prop :=
  (e.bindings.map Prod.fst).Nodup ∧
  (∀ i ∈ e.bindings.map Prod.fst, i < e.nextId) ∧
  e.pending.Nodup ∧
  (∀ i ∈ e.pending, ∃ q ∈ e.bindings, q.1 = i ∧ q.2.dirty = true)

/-- The listener-set invariant: every active binding's registration list is
exactly the listener set determined by the current registry and heap. -/
abbrev RegsOK (e : Engine) : Prop :=
  ∀ p ∈ e.bindings, p.2.active = true →
    p.2.regs = collectBindingPairs e.reg e.heap p.2.path p.2.root

/-- A binding identifier that is dead: every binding under it is inactive,
clean and holds no listeners, it is not pending, and the fresh counter has
moved past it (so it can never be reused). -/
abbrev Dead (e : Engine) (bid : Nat) : Prop :=
  (∀ b, (bid, b) ∈ e.bindings → b.active = false ∧ b.dirty = false ∧ b.regs = []) ∧
  bid ∉ e.pending ∧
  bid < e.nextId

/-- Number of notifications the log records for one binding. -/
def deliveredCount (e : Engine) (bid : Nat) : Nat :=
  (e.delivered.map Prod.fst).count bid

end SCRuntime

namespace CoreQuery

/-- A DOM element, restricted to the fields `core_query.js` reads:
`nodeType` and `className` (used by `setClass`/`_fixupClass`), and the
input `type` attribute and computed `display`/`visibility` styles (used by
`SC.$.isVisible`).  The class string is kept as a character list. -/
structure Elem where
  nodeType : Nat
  className : List Char
  type : String
  display : String
  visibility : String
deriving DecidableEq, Repr

/-- The element-level visibility predicate of `SC.$.isVisible`
(core_query.js lines 273-276): not a hidden input, computed display not
"none", computed visibility not "hidden". -/
def isVisibleElem (e : Elem) : Bool :=
  (e.type != "hidden") && (e.display != "none") && (e.visibility != "hidden")

/-- `isVisible` of the matched set (core_query.js lines 109-113):
`Array.prototype.every` of the element-level predicate over the set. -/
def isVisible (cq : List Elem) : Bool :=
  cq.all isVisibleElem

/-- The space character used by `Array.prototype.join(' ')`. -/
def spaceChar : Char := Char.ofNat 32

/-- Splitter for `String.prototype.split(/\s+/)`: separators are maximal
whitespace runs; `skipping` records that the walk is inside a separator
run whose token has already been emitted (the accumulator is empty
there). -/
def splitAux (cur : List Char) (skipping : Bool) : List Char → List (List Char)
  | [] => [cur]
  | c :: rest =>
    if c.isWhitespace then
      if skipping then splitAux [] true rest
      else cur :: splitAux [] true rest
    else splitAux (cur ++ [c]) false rest

/-- `className.split(/\s+/)` as used by `setClass` (core_query.js line
164). -/
def splitWS (s : List Char) : List (List Char) :=
  splitAux [] false s

/-- `Array.prototype.join(' ')` as used by `setClass` (core_query.js line
175); a nulled-out entry contributes the empty string. -/
def joinSp : List (List Char) → List Char
  | [] => []
  | x :: rest => rest.foldl (fun acc y => acc ++ spaceChar :: y) x

/-- `_fixupClass` (core_query.js lines 181-190): with `shouldAdd`, a
missing name is pushed and `YES` returned; without it, a present name is
nulled out (leaving extra spaces on join) and `YES` returned; otherwise
`NO`.  The class-name array is returned alongside the changed flag since
the source mutates it in place. -/
def fixupClass (classNames : List (Option (List Char))) (name : List Char)
    (shouldAdd : Bool) : List (Option (List Char)) × Bool :=
  match classNames.findIdx? (fun x => x == some name) with
  | none => if shouldAdd then (classNames ++ [some name], true) else (classNames, false)
  | some i => if shouldAdd then (classNames, false) else (classNames.set i none, true)

/-- The per-element body of `setClass` for a single string class name
(core_query.js lines 160-176): non-element nodes are skipped; the class
string is split on whitespace, fixed up, and re-joined only when a change
was made. -/
def setClassElem (e : Elem) (name : List Char) (shouldAdd : Bool) : Elem :=
  if e.nodeType ≠ 1 then e
  else
    let classNames := (splitWS e.className).map some
    let r := fixupClass classNames name shouldAdd
    if r.2 then { e with className := joinSp (r.1.map (fun o => o.getD [])) } else e

/-- `setClass` with a string class name over the whole matched set
(core_query.js lines 156-178, `this.each`). -/
def setClass (cq : List Elem) (name : List Char) (shouldAdd : Bool) : List Elem :=
  cq.map (fun e => setClassElem e name shouldAdd)

/-- A property value on the external selector engine's prototype object:
either one of jQuery's own methods, or a method installed by
`core_query.js` — a plugin method from the `SC.mixin(SC.$.fn, ...)` block,
an `SC.Enumerable` method copied over, or one of the disambiguating
wrappers. -/
inductive JSVal where
  | jqOriginal (name : String)
  | scPlugin (name : String)
  | scEnumerable (name : String)
  | scWrapper (name : String)
deriving DecidableEq, Repr

/-- A JavaScript object viewed as an ordered property table. -/
abbrev Proto := List (String × JSVal)

/-- Property read on a property table. -/
def getKey (t : Proto) (k : String) : Option JSVal :=
  (t.find? (fun p => p.1 == k)).map Prod.snd

/-- Property assignment on a property table: overwrite in place when the
key exists, append otherwise (JS object assignment). -/
def setKey (t : Proto) (k : String) (v : JSVal) : Proto :=
  if t.any (fun p => p.1 == k) then t.map (fun p => if p.1 = k then (k, v) else p)
  else t ++ [(k, v)]

/-- `SC.mixin(target, hash)`: assign every key of the hash onto the
target object. -/
def mixinProto (t : Proto) (adds : List (String × JSVal)) : Proto :=
  adds.foldl (fun t kv => setKey t kv.1 kv.2) t

/-- The keys of the plugin block mixed into `SC.$.fn` (core_query.js
lines 90-211). -/
def pluginKeys : List String :=
  ["isCoreQuery", "toString", "isVisible", "first", "last", "view",
   "setClass", "_fixupClass", "within"]

/-- The keys given disambiguating wrappers in the enumerable installation
(core_query.js lines 219-252). -/
def wrapperKeys : List String :=
  ["find", "filter", "filterProperty", "indexOf", "map"]

/-- The installation `core_query.js` performs on the external selector
engine's prototype: `SC.CoreQuery = jQuery.noConflict(); SC.$ =
SC.CoreQuery;` makes `SC.$.fn` the external library's own prototype
object, the `SC.mixin(SC.$.fn, ...)` block assigns the plugin methods onto
it (lines 90-211), and the closing closure assigns every `SC.Enumerable`
key onto it, substituting a wrapper for the keys that clash (lines
217-266, `fn[key] = value`). -/
def installCoreQuery (jqFn : Proto) (enumKeys : List String) : Proto :=
  let afterPlugins := mixinProto jqFn (pluginKeys.map (fun k => (k, JSVal.scPlugin k)))
  enumKeys.foldl (fun t k =>
    setKey t k (if wrapperKeys.contains k then JSVal.scWrapper k else JSVal.scEnumerable k))
    afterPlugins

/-- A model of jQuery's own prototype before installation: its stock
methods under their own names. -/
def jqFn0 : Proto :=
  [("find", JSVal.jqOriginal "find"), ("filter", JSVal.jqOriginal "filter"),
   ("map", JSVal.jqOriginal "map"), ("index", JSVal.jqOriginal "index"),
   ("pushStack", JSVal.jqOriginal "pushStack"), ("each", JSVal.jqOriginal "each")]

/-- A sample `SC.Enumerable` key set for the installation. -/
def enumKeys0 : List String :=
  ["find", "filter", "filterProperty", "indexOf", "map", "forEach", "firstObject"]

end CoreQuery

namespace SCRuntime

/-- A concrete registry: one top-level name bound to object 0. -/
def reg0 : Registry := [("App", Value.vObj 0)]

/-- A concrete heap: object 0's property "b" is object 1, whose property
"c" is the primitive 5; everything else is undefined. -/
def h0 : Heap := fun i n =>
  if i = 0 ∧ n = "b" then .vObj 1
  else if i = 1 ∧ n = "c" then .vPrim 5
  else .vUndefined

/-- A concrete binding on the path `App.b.c` resolved through the
registry, dirty and awaiting flush. -/
def b0 : Binding :=
  { path := ["App", "b", "c"], root := none,
    regs := [(Value.vObj 0, "b"), (Value.vObj 1, "c")], dirty := true, active := true }

/-- A concrete engine holding the single binding `b0`, already enqueued. -/
def e0 : Engine :=
  { reg := reg0, heap := h0, bindings := [(0, b0)], pending := [0], nextId := 1,
    delivered := [] }

end SCRuntime

namespace CoreQuery

/-- A concrete element whose class string holds two class names. -/
def elemA : Elem :=
  { nodeType := 1, className := "foo bar".toList, type := "text",
    display := "block", visibility := "visible" }

/-- A class name present on `elemA`. -/
def nameFoo : List Char := "foo".toList

/-- A class name absent from `elemA`. -/
def nameBaz : List Char := "baz".toList

end CoreQuery

/-! ## Theorems -/

namespace SCRuntime

/-- C7: for every root R, resolving an empty path (zero segments) against R
returns R itself, with no failure. -/
theorem C7_empty_path_resolves_to_root :
    ∀ (reg : Registry) (h : Heap) (r : Value),
      resolve reg h [] (some r) = .ok r none ∧ resolveValue reg h [] (some r) = r := by
  intro reg h r
  exact ⟨rfl, rfl⟩

/-- C6: `register` followed by `lookup` of the same name returns the
registered object; a second `register` overwrites without prior removal so
the subsequent `lookup` returns the new object; and `lookup` never mutates
the registry state. -/
theorem C6_register_overwrites_lookup_pure :
    ∀ (reg : Registry) (name : String) (obj obj2 : Value),
      (lookupSt (registerName reg name obj) name).1 = some obj ∧
      (lookupSt (registerName (registerName reg name obj) name obj2) name).1 = some obj2 ∧
      (∀ n, (lookupSt reg n).2 = reg) := by
  intro reg name obj obj2
  refine ⟨?_, ?_, fun n => rfl⟩ <;>
    simp [lookupSt, lookupName, registerName, List.find?_cons]

/-- C2: with no explicit root, a first segment present in the Global Root
Registry resolves to the registered root object (one-segment path) or
continues the walk from it; an absent first segment fails with
`UnresolvedRoot`. -/
theorem C2_first_segment_uses_registry :
    ∀ (reg : Registry) (h : Heap) (name : String) (rest : List String) (v : Value),
      (lookupName reg name = some v →
        resolve reg h [name] none = .ok v none ∧
        resolve reg h (name :: rest) none = walk h none v rest) ∧
      (lookupName reg name = none →
        resolve reg h (name :: rest) none = .unresolvedRoot) := by
  intro reg h name rest v
  constructor
  · intro hl
    exact ⟨by simp [resolve, hl, walk], by simp [resolve, hl]⟩
  · intro hl
    simp [resolve, hl]

/-- Witness for C2 at the concrete registry: the registered name resolves
to its root object and a missing name fails with `UnresolvedRoot`. -/
theorem C2_first_segment_uses_registry_witness :
    resolve reg0 h0 ["App"] none = .ok (Value.vObj 0) none ∧
    resolve reg0 h0 ["Missing"] none = .unresolvedRoot :=
  ⟨((C2_first_segment_uses_registry reg0 h0 "App" [] (Value.vObj 0)).1 (by decide)).1,
   (C2_first_segment_uses_registry reg0 h0 "Missing" [] Value.vUndefined).2 (by decide)⟩

/-- C3: a `null`/`undefined` owner met with segments remaining yields
`BrokenChain` and a non-traversable owner yields `NotTraversable`; both
collapse the terminal value to absent, and resolution is a total function
(it never raises). -/
theorem C3_broken_chain_collapses_to_absent :
    (∀ (h : Heap) (o : Option Value) (seg : String) (rest : List String),
        walk h o .vNull (seg :: rest) = .brokenChain ∧
        walk h o .vUndefined (seg :: rest) = .brokenChain) ∧
    (∀ (h : Heap) (o : Option Value) (n : Int) (seg : String) (rest : List String),
        walk h o (.vPrim n) (seg :: rest) = .notTraversable) ∧
    (∀ (reg : Registry) (h : Heap) (path : List String) (root : Option Value),
        resolve reg h path root = .brokenChain ∨
          resolve reg h path root = .notTraversable →
        resolveValue reg h path root = .vUndefined) := by
  refine ⟨fun h o seg rest => ⟨rfl, rfl⟩, fun h o n seg rest => rfl, ?_⟩
  intro reg h path root hr
  unfold resolveValue
  rcases hr with hr | hr <;> rw [hr] <;> rfl

/-- Witness for C3: a path through a missing (undefined) intermediate
collapses to the absent value on the concrete heap. -/
theorem C3_broken_chain_collapses_to_absent_witness :
    resolveValue reg0 h0 ["App", "x", "y"] none = .vUndefined :=
  C3_broken_chain_collapses_to_absent.2.2 reg0 h0 ["App", "x", "y"] none
    (Or.inl (by decide))

/-- The owner accumulator does not influence the collapsed walk value. -/
theorem resValue_walk (h : Heap) :
    ∀ (p : List String) (cur : Value) (o : Option Value),
      resValue (walk h o cur p) = walkValue h cur p := by
  intro p
  induction p with
  | nil => intro cur o; rfl
  | cons seg rest ih =>
    intro cur o
    cases cur with
    | vUndefined => rfl
    | vNull => rfl
    | vPrim n => rfl
    | vObj id => exact ih (h id seg) (some (.vObj id))

/-- A non-traversable value collects no listeners. -/
theorem collectPairs_nonobj (h : Heap) (cur : Value) (hno : Value.isObj cur = false)
    (seg : String) (rest : List String) : collectPairs h cur (seg :: rest) = [] := by
  cases cur with
  | vObj i => simp [Value.isObj] at hno
  | vUndefined => rfl
  | vNull => rfl
  | vPrim n => rfl

/-- A non-traversable value walks to the absent value on any nonempty
path. -/
theorem walkValue_nonobj (h : Heap) (cur : Value) (hno : Value.isObj cur = false)
    (seg : String) (rest : List String) :
    walkValue h cur (seg :: rest) = .vUndefined := by
  cases cur with
  | vObj i => simp [Value.isObj] at hno
  | vUndefined => rfl
  | vNull => rfl
  | vPrim n => rfl

/-- The objects collected along the activation walk are exactly the
traversable values reached by walking each proper prefix of the remaining
path. -/
theorem collectPairs_map_fst (h : Heap) :
    ∀ (segs : List String) (cur : Value),
      (collectPairs h cur segs).map Prod.fst
        = ((List.range segs.length).map
            (fun k => walkValue h cur (segs.take k))).filter Value.isObj := by
  intro segs
  induction segs with
  | nil => intro cur; simp [collectPairs]
  | cons seg rest ih =>
    intro cur
    rw [List.length_cons, List.range_succ_eq_map, List.map_cons, List.map_map]
    have hcomp : ((fun k => walkValue h cur ((seg :: rest).take k)) ∘ Nat.succ)
        = (fun k => walkValue h cur (seg :: rest.take k)) := by
      funext k
      simp [Function.comp, List.take_succ_cons]
    rw [hcomp]
    by_cases hobj : Value.isObj cur = true
    · obtain ⟨id, rfl⟩ : ∃ id, cur = Value.vObj id := by
        cases cur with
        | vObj i => exact ⟨i, rfl⟩
        | vUndefined => simp [Value.isObj] at hobj
        | vNull => simp [Value.isObj] at hobj
        | vPrim n => simp [Value.isObj] at hobj
      have hhead : walkValue h (Value.vObj id) ((seg :: rest).take 0) = Value.vObj id := rfl
      rw [hhead, List.filter_cons_of_pos rfl]
      have htail : (fun k => walkValue h (Value.vObj id) (seg :: rest.take k))
          = (fun k => walkValue h (h id seg) (rest.take k)) := by
        funext k
        simp [walkValue]
      rw [htail]
      show ((Value.vObj id, seg) :: collectPairs h (h id seg) rest).map Prod.fst = _
      rw [List.map_cons, ih (h id seg)]
    · have hno : Value.isObj cur = false := by simpa using hobj
      rw [collectPairs_nonobj h cur hno]
      have hhead : walkValue h cur ((seg :: rest).take 0) = cur := rfl
      rw [hhead, List.filter_cons_of_neg (by simp [hno])]
      have htail : ((List.range rest.length).map
          (fun k => walkValue h cur (seg :: rest.take k))).filter Value.isObj = [] := by
        rw [List.filter_eq_nil_iff]
        intro a ha
        obtain ⟨k, hk, rfl⟩ := List.mem_map.mp ha
        rw [walkValue_nonobj h cur hno]
        simp [Value.isObj]
      rw [htail]
      rfl

/-- Binding-level form of the listener characterisation: the listened
objects are the traversable proper-prefix resolutions against the current
root. -/
theorem collectBindingPairs_map_fst (reg : Registry) (h : Heap) (path : List String)
    (root : Option Value) :
    (collectBindingPairs reg h path root).map Prod.fst = specListened reg h path root := by
  unfold specListened
  cases root with
  | some r =>
    have hmap : (List.range path.length).map
          (fun k => resolveValue reg h (path.take k) (some r))
        = (List.range path.length).map (fun k => walkValue h r (path.take k)) :=
      List.map_congr_left (fun k _ => resValue_walk h (path.take k) r none)
    rw [hmap]
    exact collectPairs_map_fst h path r
  | none =>
    cases path with
    | nil => rfl
    | cons first rest =>
      cases hl : lookupName reg first with
      | none =>
        have hall : ((List.range (first :: rest).length).map
            (fun k => resolveValue reg h ((first :: rest).take k) none)).filter
              Value.isObj = [] := by
          rw [List.filter_eq_nil_iff]
          intro a ha
          obtain ⟨k, hk, rfl⟩ := List.mem_map.mp ha
          cases k with
          | zero => simp [resolveValue, resolve, resValue, Value.isObj]
          | succ k' =>
            rw [List.take_succ_cons]
            simp [resolveValue, resolve, hl, resValue, Value.isObj]
        rw [hall]
        have hcb : collectBindingPairs reg h (first :: rest) none = [] := by
          simp only [collectBindingPairs, hl]
        rw [hcb]
        rfl
      | some v =>
        have hcb : collectBindingPairs reg h (first :: rest) none =
            collectPairs h v rest := by
          simp only [collectBindingPairs, hl]
        rw [hcb]
        rw [List.length_cons, List.range_succ_eq_map, List.map_cons, List.map_map]
        have hhead : resolveValue reg h ((first :: rest).take 0) none = Value.vUndefined :=
          rfl
        rw [hhead, List.filter_cons_of_neg (by simp [Value.isObj])]
        have htail : ((fun k => resolveValue reg h ((first :: rest).take k) none) ∘
              Nat.succ) = (fun k => walkValue h v (rest.take k)) := by
          funext k
          show resolveValue reg h (first :: rest.take k) none = _
          have hres : resolve reg h (first :: rest.take k) none
              = walk h none v (rest.take k) := by
            simp only [resolve, hl]
          unfold resolveValue
          rw [hres]
          exact resValue_walk h (rest.take k) v none
        rw [htail]
        exact collectPairs_map_fst h rest v

/-- A heap update at a pair no listener watches does not change the
collected listener set. -/
theorem collectPairs_frame (objId : Nat) (name : String) (v : Value) (h : Heap) :
    ∀ (segs : List String) (cur : Value),
      (Value.vObj objId, name) ∉ collectPairs h cur segs →
      collectPairs (hUpdate h objId name v) cur segs = collectPairs h cur segs := by
  intro segs
  induction segs with
  | nil => intro cur _; rfl
  | cons seg rest ih =>
    intro cur hnm
    by_cases hobj : ∃ id, cur = Value.vObj id
    · obtain ⟨id, rfl⟩ := hobj
      have hne : ¬((Value.vObj objId, name) = (Value.vObj id, seg)) :=
        fun he => hnm (List.mem_cons.mpr (Or.inl he))
      have htl : (Value.vObj objId, name) ∉ collectPairs h (h id seg) rest :=
        fun ht => hnm (List.mem_cons.mpr (Or.inr ht))
      have hup : hUpdate h objId name v id seg = h id seg := by
        unfold hUpdate
        rw [if_neg]
        intro hand
        exact hne (by rw [hand.1, hand.2])
      show (Value.vObj id, seg) ::
            collectPairs (hUpdate h objId name v) (hUpdate h objId name v id seg) rest
          = (Value.vObj id, seg) :: collectPairs h (h id seg) rest
      rw [hup, ih (h id seg) htl]
    · have hno : Value.isObj cur = false := by
        cases cur with
        | vObj i => exact absurd ⟨i, rfl⟩ hobj
        | vUndefined => rfl
        | vNull => rfl
        | vPrim n => rfl
      rw [collectPairs_nonobj _ cur hno, collectPairs_nonobj _ cur hno]

/-- Binding-level frame lemma: a mutation at an unlistened pair leaves the
binding's listener set untouched. -/
theorem collectBindingPairs_frame (reg : Registry) (objId : Nat) (name : String)
    (v : Value) (h : Heap) (path : List String) (root : Option Value)
    (hnm : (Value.vObj objId, name) ∉ collectBindingPairs reg h path root) :
    collectBindingPairs reg (hUpdate h objId name v) path root
      = collectBindingPairs reg h path root := by
  cases root with
  | some r => exact collectPairs_frame objId name v h path r hnm
  | none =>
    cases path with
    | nil => rfl
    | cons first rest =>
      cases hl : lookupName reg first with
      | none => simp only [collectBindingPairs, hl]
      | some w =>
        have h1 : collectBindingPairs reg h (first :: rest) none =
            collectPairs h w rest := by
          simp only [collectBindingPairs, hl]
        have h2 : collectBindingPairs reg (hUpdate h objId name v) (first :: rest) none
            = collectPairs (hUpdate h objId name v) w rest := by
          simp only [collectBindingPairs, hl]
        rw [h1] at hnm
        rw [h2, h1, collectPairs_frame objId name v h rest w hnm]

/-- A property mutation preserves the listener-set invariant: affected
bindings re-resolve against the new heap, unaffected ones are covered by
the frame lemma. -/
theorem regsOK_setProp (e : Engine) (objId : Nat) (name : String) (v : Value)
    (hr : RegsOK e) : RegsOK (setProp e objId name v) := by
  intro p hp hact
  obtain ⟨q, hq, hstep⟩ := List.mem_map.mp hp
  by_cases haf : affectedBy objId name q.2 = true
  · rw [if_pos haf] at hstep
    cases hstep
    rfl
  · rw [if_neg haf] at hstep
    cases hstep
    have hq' := hr p hq hact
    have hpair : (Value.vObj objId, name) ∉ p.2.regs := by
      intro hmem
      apply haf
      unfold affectedBy
      rw [hact]
      simp [hmem]
    rw [hq'] at hpair
    show p.2.regs
        = collectBindingPairs e.reg (hUpdate e.heap objId name v) p.2.path p.2.root
    rw [collectBindingPairs_frame e.reg objId name v e.heap p.2.path p.2.root hpair]
    exact hq'

/-- Activation preserves the listener-set invariant: the fresh binding's
registrations are computed by the activation walk itself. -/
theorem regsOK_activate (e : Engine) (path : List String) (root : Option Value)
    (hr : RegsOK e) : RegsOK (activate e path root) := by
  intro p hp hact
  rcases List.mem_append.mp hp with hold | hnew
  · exact hr p hold hact
  · rw [List.mem_singleton] at hnew
    subst hnew
    rfl

/-- Deactivation preserves the listener-set invariant (the deactivated
binding leaves the active set). -/
theorem regsOK_deactivate (e : Engine) (bid : Nat) (hr : RegsOK e) :
    RegsOK (deactivate e bid) := by
  intro p hp hact
  obtain ⟨q, hq, hstep⟩ := List.mem_map.mp hp
  by_cases hk : q.1 = bid
  · rw [if_pos hk] at hstep
    cases hstep
    simp at hact
  · rw [if_neg hk] at hstep
    cases hstep
    exact hr p hq hact

/-- Clearing a dirty flag preserves the listener-set invariant. -/
theorem regsOK_clearDirty (e : Engine) (bid : Nat) (hr : RegsOK e) :
    RegsOK (clearDirty e bid) := by
  intro p hp hact
  obtain ⟨q, hq, hstep⟩ := List.mem_map.mp hp
  by_cases hk : q.1 = bid
  · rw [if_pos hk] at hstep
    cases hstep
    exact hr q hq hact
  · rw [if_neg hk] at hstep
    cases hstep
    exact hr p hq hact

/-- Folded deactivations preserve the listener-set invariant. -/
theorem regsOK_deactivates : ∀ (l : List Nat) (e : Engine), RegsOK e →
    RegsOK (l.foldl deactivate e) := by
  intro l
  induction l with
  | nil => intro e hr; exact hr
  | cons j rest ih =>
    intro e hr
    exact ih (deactivate e j) (regsOK_deactivate e j hr)

/-- The flush pass preserves the listener-set invariant through every
delivery and mid-cycle deactivation. -/
theorem regsOK_flushAux (cb : Nat → List Nat) :
    ∀ (ids : List Nat) (e : Engine), RegsOK e → RegsOK (flushAux cb e ids).1 := by
  intro ids
  induction ids with
  | nil => intro e hr; exact hr
  | cons bid rest ih =>
    intro e hr
    simp only [flushAux]
    cases hf : e.bindings.find? (fun p => p.1 == bid) with
    | none =>
      simp only [hf]
      exact ih e hr
    | some p =>
      simp only [hf]
      by_cases hd : (p.2.active && p.2.dirty) = true
      · simp only [hd, if_true]
        exact ih _ (regsOK_deactivates (cb bid) _ (regsOK_clearDirty e bid hr))
      · simp only [hd, if_false]
        exact ih e hr

/-- The complete end-of-turn flush preserves the listener-set
invariant. -/
theorem regsOK_flush (cb : Nat → List Nat) (e : Engine) (hr : RegsOK e) :
    RegsOK (flush cb e) := by
  intro p hp hact
  have h1 : RegsOK (flushAux cb { e with pending := [] } e.pending).1 :=
    regsOK_flushAux cb e.pending { e with pending := [] } (fun q hq ha => hr q hq ha)
  exact h1 p hp hact

/-- Every engine operation preserves the listener-set invariant. -/
theorem regsOK_applyOp (e : Engine) (op : Op) (hr : RegsOK e) :
    RegsOK (applyOp op e) := by
  cases op with
  | set objId name v => exact regsOK_setProp e objId name v hr
  | act path root => exact regsOK_activate e path root hr
  | deact bid => exact regsOK_deactivate e bid hr
  | doFlush cb => exact regsOK_flush cb e hr

/-- C4: a binding's listened-object set equals the set of non-null
traversable objects obtained by resolving each proper prefix of its path
against the current root, and every engine operation (activation,
mutation-driven re-resolution, deactivation, flush) preserves this
equality for every active binding. -/
theorem C4_listener_set_invariant :
    (∀ (reg : Registry) (h : Heap) (path : List String) (root : Option Value),
        (collectBindingPairs reg h path root).map Prod.fst
          = specListened reg h path root) ∧
    (∀ (e : Engine) (op : Op), RegsOK e → RegsOK (applyOp op e)) :=
  ⟨collectBindingPairs_map_fst, fun e op hr => regsOK_applyOp e op hr⟩

/-- Witness for C4 on the concrete engine: the characterisation at the
concrete path, and preservation of the invariant across a concrete
mutation. -/
theorem C4_listener_set_invariant_witness :
    (collectBindingPairs reg0 h0 ["App", "b", "c"] none).map Prod.fst
      = specListened reg0 h0 ["App", "b", "c"] none ∧
    RegsOK (applyOp (Op.set 0 "b" (Value.vObj 1)) e0) :=
  ⟨C4_listener_set_invariant.1 reg0 h0 ["App", "b", "c"] none,
   C4_listener_set_invariant.2 e0 (Op.set 0 "b" (Value.vObj 1)) (by decide)⟩

/-- In a table with distinct keys, one key holds one binding. -/
theorem assoc_key_unique (l : List (Nat × Binding)) (hnd : (l.map Prod.fst).Nodup)
    (a : Nat) (b c : Binding) (hb : (a, b) ∈ l) (hc : (a, c) ∈ l) : b = c := by
  induction l with
  | nil => cases hb
  | cons p rest ih =>
    rw [List.map_cons, List.nodup_cons] at hnd
    rcases List.mem_cons.mp hb with hb1 | hb2
    · rcases List.mem_cons.mp hc with hc1 | hc2
      · cases hb1.trans hc1.symm
        rfl
      · exfalso
        apply hnd.1
        have ha : a ∈ List.map Prod.fst rest := List.mem_map_of_mem Prod.fst hc2
        rw [← hb1]
        exact ha
    · rcases List.mem_cons.mp hc with hc1 | hc2
      · exfalso
        apply hnd.1
        have ha : a ∈ List.map Prod.fst rest := List.mem_map_of_mem Prod.fst hb2
        rw [← hc1]
        exact ha
      · exact ih hnd.2 hb2 hc2

/-- Mapping a key-preserving step over a table preserves the key list. -/
theorem map_fst_map_step (l : List (Nat × Binding)) (f : Nat × Binding → Nat × Binding)
    (hf : ∀ p, (f p).1 = p.1) : (l.map f).map Prod.fst = l.map Prod.fst := by
  rw [List.map_map]
  exact List.map_congr_left (fun p _ => hf p)

/-- A property mutation preserves engine well-formedness: the enqueued
identifiers are exactly the affected not-yet-dirty bindings, which are
disjoint from those already pending. -/
theorem wf_setProp (e : Engine) (objId : Nat) (name : String) (v : Value) (hw : WF e) :
    WF (setProp e objId name v) := by
  obtain ⟨hk, hb, hpn, hpd⟩ := hw
  have hkeys : (setProp e objId name v).bindings.map Prod.fst
      = e.bindings.map Prod.fst := by
    apply map_fst_map_step
    intro p
    by_cases haf : affectedBy objId name p.2 = true
    · rw [if_pos haf]
    · rw [if_neg haf]
  refine ⟨?_, ?_, ?_, ?_⟩
  · rw [hkeys]
    exact hk
  · intro i hi
    rw [hkeys] at hi
    exact hb i hi
  · show (e.pending ++
      ((e.bindings.filter (fun p => affectedBy objId name p.2 && !p.2.dirty)).map
        Prod.fst)).Nodup
    rw [List.nodup_append]
    refine ⟨hpn, ?_, ?_⟩
    · have hsub : ((e.bindings.filter
            (fun p => affectedBy objId name p.2 && !p.2.dirty)).map Prod.fst).Sublist
          (e.bindings.map Prod.fst) :=
        List.Sublist.map Prod.fst (List.filter_sublist e.bindings)
      exact List.Nodup.sublist hsub hk
    · intro i hip hin
      obtain ⟨qb, hbmem, hbi, hbd⟩ := hpd i hip
      obtain ⟨q, hq, hqi⟩ := List.mem_map.mp hin
      have hqf := List.mem_filter.mp hq
      have hdirty_false : q.2.dirty = false := by
        have h2 := (Bool.and_eq_true _ _).mp hqf.2
        simpa using h2.2
      have hq2 : (i, q.2) ∈ e.bindings := by
        rw [← hqi]
        exact hqf.1
      have hb2 : (i, qb.2) ∈ e.bindings := by
        rw [← hbi]
        exact hbmem
      have hbq : qb.2 = q.2 := assoc_key_unique e.bindings hk i qb.2 q.2 hb2 hq2
      rw [← hbq] at hdirty_false
      rw [hbd] at hdirty_false
      cases hdirty_false
  · intro i hi
    rcases List.mem_append.mp hi with hio | hin
    · obtain ⟨qb, hbmem, hbi, hbd⟩ := hpd i hio
      by_cases haf : affectedBy objId name qb.2 = true
      · refine ⟨(qb.1, { qb.2 with
            regs := collectBindingPairs e.reg (hUpdate e.heap objId name v)
              qb.2.path qb.2.root,
            dirty := true }), ?_, hbi, rfl⟩
        exact List.mem_map.mpr ⟨qb, hbmem, by rw [if_pos haf]⟩
      · refine ⟨qb, ?_, hbi, hbd⟩
        exact List.mem_map.mpr ⟨qb, hbmem, by rw [if_neg haf]⟩
    · obtain ⟨q, hq, hqi⟩ := List.mem_map.mp hin
      have hqf := List.mem_filter.mp hq
      have haf : affectedBy objId name q.2 = true := ((Bool.and_eq_true _ _).mp hqf.2).1
      refine ⟨(q.1, { q.2 with
          regs := collectBindingPairs e.reg (hUpdate e.heap objId name v)
            q.2.path q.2.root,
          dirty := true }), ?_, hqi, rfl⟩
      exact List.mem_map.mpr ⟨q, hqf.1, by rw [if_pos haf]⟩

/-- Binding activation preserves engine well-formedness: the allocated
identifier is fresh. -/
theorem wf_activate (e : Engine) (path : List String) (root : Option Value) (hw : WF e) :
    WF (activate e path root) := by
  obtain ⟨hk, hb, hpn, hpd⟩ := hw
  have hkeys : (activate e path root).bindings.map Prod.fst
      = e.bindings.map Prod.fst ++ [e.nextId] := by
    show (e.bindings ++ [(e.nextId, _)]).map Prod.fst = _
    rw [List.map_append, List.map_singleton]
  refine ⟨?_, ?_, hpn, ?_⟩
  · rw [hkeys, List.nodup_append]
    refine ⟨hk, List.nodup_singleton _, ?_⟩
    intro i hi hi2
    rw [List.mem_singleton] at hi2
    subst hi2
    exact Nat.lt_irrefl _ (hb _ hi)
  · intro i hi
    rw [hkeys, List.mem_append] at hi
    show i < e.nextId + 1
    rcases hi with hi | hi
    · exact Nat.lt_succ_of_lt (hb i hi)
    · rw [List.mem_singleton] at hi
      subst hi
      exact Nat.lt_succ_self _
  · intro i hi
    obtain ⟨q, hbm, hbi, hbd⟩ := hpd i hi
    exact ⟨q, List.mem_append_left _ hbm, hbi, hbd⟩

/-- Binding deactivation preserves engine well-formedness: the identifier
leaves the pending queue and all other pending entries stay dirty. -/
theorem wf_deactivate (e : Engine) (bid : Nat) (hw : WF e) : WF (deactivate e bid) := by
  obtain ⟨hk, hb, hpn, hpd⟩ := hw
  have hkeys : (deactivate e bid).bindings.map Prod.fst = e.bindings.map Prod.fst := by
    apply map_fst_map_step
    intro p
    by_cases hkk : p.1 = bid
    · rw [if_pos hkk]
    · rw [if_neg hkk]
  refine ⟨by rw [hkeys]; exact hk, ?_, List.Nodup.filter _ hpn, ?_⟩
  · intro i hi
    rw [hkeys] at hi
    exact hb i hi
  · intro i hi
    have hif := List.mem_filter.mp hi
    have hne : i ≠ bid := by simpa using hif.2
    obtain ⟨q, hbm, hbi, hbd⟩ := hpd i hif.1
    have hqne : q.1 ≠ bid := by
      rw [hbi]
      exact hne
    refine ⟨q, ?_, hbi, hbd⟩
    exact List.mem_map.mpr ⟨q, hbm, by rw [if_neg hqne]⟩

/-- Deactivation preserves the key list of the binding table. -/
theorem deactivate_keys (e : Engine) (bid : Nat) :
    (deactivate e bid).bindings.map Prod.fst = e.bindings.map Prod.fst := by
  apply map_fst_map_step
  intro p
  by_cases hkk : p.1 = bid
  · rw [if_pos hkk]
  · rw [if_neg hkk]

/-- Clearing a dirty flag preserves the key list of the binding table. -/
theorem clearDirty_keys (e : Engine) (bid : Nat) :
    (clearDirty e bid).bindings.map Prod.fst = e.bindings.map Prod.fst := by
  apply map_fst_map_step
  intro p
  by_cases hkk : p.1 = bid
  · rw [if_pos hkk]
  · rw [if_neg hkk]

/-- Folded deactivations preserve the key list. -/
theorem deactivates_keys : ∀ (l : List Nat) (e : Engine),
    ((l.foldl deactivate e).bindings).map Prod.fst = e.bindings.map Prod.fst := by
  intro l
  induction l with
  | nil => intro e; rfl
  | cons j rest ih =>
    intro e
    rw [List.foldl_cons, ih, deactivate_keys]

/-- Folded deactivations preserve the fresh counter. -/
theorem deactivates_nextId : ∀ (l : List Nat) (e : Engine),
    (l.foldl deactivate e).nextId = e.nextId := by
  intro l
  induction l with
  | nil => intro e; rfl
  | cons j rest ih =>
    intro e
    rw [List.foldl_cons]
    exact ih (deactivate e j)

/-- Folded deactivations preserve the delivery log. -/
theorem deactivates_delivered : ∀ (l : List Nat) (e : Engine),
    (l.foldl deactivate e).delivered = e.delivered := by
  intro l
  induction l with
  | nil => intro e; rfl
  | cons j rest ih =>
    intro e
    rw [List.foldl_cons]
    exact ih (deactivate e j)

/-- Folded deactivations keep an empty pending queue empty. -/
theorem deactivates_pending_nil : ∀ (l : List Nat) (e : Engine), e.pending = [] →
    (l.foldl deactivate e).pending = [] := by
  intro l
  induction l with
  | nil => intro e h; exact h
  | cons j rest ih =>
    intro e h
    rw [List.foldl_cons]
    apply ih
    show e.pending.filter (fun i => i ≠ j) = []
    rw [h]
    rfl

/-- The flush pass leaves keys, counter and log untouched and keeps an
empty pending queue empty. -/
theorem flushAux_frame (cb : Nat → List Nat) :
    ∀ (ids : List Nat) (e : Engine),
      (flushAux cb e ids).1.bindings.map Prod.fst = e.bindings.map Prod.fst ∧
      (flushAux cb e ids).1.nextId = e.nextId ∧
      (flushAux cb e ids).1.delivered = e.delivered ∧
      (e.pending = [] → (flushAux cb e ids).1.pending = []) := by
  intro ids
  induction ids with
  | nil => intro e; exact ⟨rfl, rfl, rfl, fun h => h⟩
  | cons bid rest ih =>
    intro e
    simp only [flushAux]
    cases hf : e.bindings.find? (fun p => p.1 == bid) with
    | none =>
      simp only [hf]
      exact ih e
    | some p =>
      simp only [hf]
      by_cases hd : (p.2.active && p.2.dirty) = true
      · simp only [hd, if_true]
        obtain ⟨i1, i2, i3, i4⟩ := ih ((cb bid).foldl deactivate (clearDirty e bid))
        refine ⟨?_, ?_, ?_, ?_⟩
        · rw [i1, deactivates_keys, clearDirty_keys]
        · rw [i2, deactivates_nextId]
          rfl
        · rw [i3, deactivates_delivered]
          rfl
        · intro h
          apply i4
          apply deactivates_pending_nil
          exact h
      · simp only [hd, if_false]
        exact ih e

/-- The full flush preserves engine well-formedness: the pending queue is
consumed entirely. -/
theorem wf_flush (cb : Nat → List Nat) (e : Engine) (hw : WF e) : WF (flush cb e) := by
  obtain ⟨hk, hb, hpn, hpd⟩ := hw
  obtain ⟨f1, f2, f3, f4⟩ := flushAux_frame cb e.pending { e with pending := [] }
  have hp : (flush cb e).pending = [] := f4 rfl
  refine ⟨?_, ?_, ?_, ?_⟩
  · show ((flushAux cb { e with pending := [] } e.pending).1.bindings.map Prod.fst).Nodup
    rw [f1]
    exact hk
  · intro i hi
    have hi' : i ∈ (flushAux cb { e with pending := [] } e.pending).1.bindings.map
        Prod.fst := hi
    rw [f1] at hi'
    show i < (flushAux cb { e with pending := [] } e.pending).1.nextId
    rw [f2]
    exact hb i hi'
  · rw [hp]
    exact List.nodup_nil
  · intro i hi
    rw [hp] at hi
    cases hi

/-- Every engine operation preserves well-formedness. -/
theorem wf_applyOp (e : Engine) (op : Op) (hw : WF e) : WF (applyOp op e) := by
  cases op with
  | set objId name v => exact wf_setProp e objId name v hw
  | act path root => exact wf_activate e path root hw
  | deact bid => exact wf_deactivate e bid hw
  | doFlush cb => exact wf_flush cb e hw

/-- Each binding identifier appears at most as often among the flush's
deliveries as in the pending queue being consumed. -/
theorem flushAux_deliveries_sublist (cb : Nat → List Nat) :
    ∀ (ids : List Nat) (e : Engine),
      ((flushAux cb e ids).2.map Prod.fst).Sublist ids := by
  intro ids
  induction ids with
  | nil => intro e; simp [flushAux]
  | cons bid rest ih =>
    intro e
    simp only [flushAux]
    cases hf : e.bindings.find? (fun p => p.1 == bid) with
    | none =>
      simp only [hf]
      exact (ih e).cons bid
    | some p =>
      simp only [hf]
      by_cases hd : (p.2.active && p.2.dirty) = true
      · simp only [hd, if_true, List.map_cons]
        exact List.Sublist.cons₂ bid (ih _)
      · simp only [hd, if_false]
        exact (ih e).cons bid

/-- C1: within one turn, no matter how many mutations were batched, the
end-of-turn flush invokes each binding's target at most once — every
engine operation preserves well-formedness, and under well-formedness the
flush's delivery list mentions each binding identifier at most once. -/
theorem C1_coalesced_single_delivery :
    (∀ (e : Engine) (op : Op), WF e → WF (applyOp op e)) ∧
    (∀ (e : Engine) (cb : Nat → List Nat) (bid : Nat), WF e →
      ((flushDeliveries cb e).map Prod.fst).count bid ≤ 1) := by
  refine ⟨fun e op hw => wf_applyOp e op hw, ?_⟩
  intro e cb bid hw
  have hsub : ((flushDeliveries cb e).map Prod.fst).Sublist e.pending :=
    flushAux_deliveries_sublist cb e.pending { e with pending := [] }
  have hnd : ((flushDeliveries cb e).map Prod.fst).Nodup :=
    List.Nodup.sublist hsub hw.2.2.1
  exact List.nodup_iff_count_le_one.mp hnd bid

/-- Witness for C1: on the concrete engine, a mutation keeps the state
well-formed, and a flush whose callback deactivates the flushed binding
delivers to binding 0 at most once. -/
theorem C1_coalesced_single_delivery_witness :
    WF (applyOp (Op.set 1 "c" (Value.vPrim 7)) e0) ∧
    ((flushDeliveries (fun i => [i]) e0).map Prod.fst).count 0 ≤ 1 :=
  ⟨C1_coalesced_single_delivery.1 e0 (Op.set 1 "c" (Value.vPrim 7)) (by decide),
   C1_coalesced_single_delivery.2 e0 (fun i => [i]) 0 (by decide)⟩

/-- Deactivating any binding preserves another identifier's deadness. -/
theorem dead_deactivate (e : Engine) (bid j : Nat) (hd : Dead e bid) :
    Dead (deactivate e j) bid := by
  obtain ⟨h1, h2, h3⟩ := hd
  refine ⟨?_, ?_, h3⟩
  · intro b hb
    obtain ⟨q, hq, hstep⟩ := List.mem_map.mp hb
    by_cases hk : q.1 = j
    · rw [if_pos hk] at hstep
      cases hstep
      exact ⟨rfl, rfl, rfl⟩
    · rw [if_neg hk] at hstep
      cases hstep
      exact h1 b hq
  · intro hmem
    exact h2 (List.mem_filter.mp hmem).1

/-- Folded deactivations preserve deadness. -/
theorem dead_deactivates : ∀ (l : List Nat) (e : Engine) (bid : Nat), Dead e bid →
    Dead (l.foldl deactivate e) bid := by
  intro l
  induction l with
  | nil => intro e bid hd; exact hd
  | cons j rest ih =>
    intro e bid hd
    rw [List.foldl_cons]
    exact ih (deactivate e j) bid (dead_deactivate e bid j hd)

/-- Clearing any dirty flag preserves deadness. -/
theorem dead_clearDirty (e : Engine) (bid j : Nat) (hd : Dead e bid) :
    Dead (clearDirty e j) bid := by
  obtain ⟨h1, h2, h3⟩ := hd
  refine ⟨?_, h2, h3⟩
  intro b hb
  obtain ⟨q, hq, hstep⟩ := List.mem_map.mp hb
  by_cases hk : q.1 = j
  · rw [if_pos hk] at hstep
    cases hstep
    have hqm : (q.1, q.2) ∈ e.bindings := hq
    exact ⟨(h1 q.2 hqm).1, rfl, (h1 q.2 hqm).2.2⟩
  · rw [if_neg hk] at hstep
    cases hstep
    exact h1 b hq

/-- A property mutation preserves deadness: a dead binding is inactive, so
it is never affected and never enqueued. -/
theorem dead_setProp (e : Engine) (objId : Nat) (name : String) (v : Value) (bid : Nat)
    (hd : Dead e bid) : Dead (setProp e objId name v) bid := by
  obtain ⟨h1, h2, h3⟩ := hd
  refine ⟨?_, ?_, h3⟩
  · intro b hb
    obtain ⟨q, hq, hstep⟩ := List.mem_map.mp hb
    by_cases haf : affectedBy objId name q.2 = true
    · rw [if_pos haf] at hstep
      cases hstep
      have hact : q.2.active = true := ((Bool.and_eq_true _ _).mp haf).1
      have hqm : (q.1, q.2) ∈ e.bindings := hq
      have hfalse := (h1 q.2 hqm).1
      rw [hact] at hfalse
      cases hfalse
    · rw [if_neg haf] at hstep
      cases hstep
      exact h1 b hq
  · intro hmem
    rcases List.mem_append.mp hmem with hmo | hmn
    · exact h2 hmo
    · obtain ⟨q, hq, hqi⟩ := List.mem_map.mp hmn
      have hqf := List.mem_filter.mp hq
      have haf : affectedBy objId name q.2 = true := ((Bool.and_eq_true _ _).mp hqf.2).1
      have hact : q.2.active = true := ((Bool.and_eq_true _ _).mp haf).1
      have hqmem : (bid, q.2) ∈ e.bindings := by
        rw [← hqi]
        exact hqf.1
      have hfalse := (h1 q.2 hqmem).1
      rw [hact] at hfalse
      cases hfalse

/-- Activating a new binding preserves deadness: the fresh identifier is
above the dead one. -/
theorem dead_activate (e : Engine) (path : List String) (root : Option Value) (bid : Nat)
    (hd : Dead e bid) : Dead (activate e path root) bid := by
  obtain ⟨h1, h2, h3⟩ := hd
  refine ⟨?_, h2, Nat.lt_succ_of_lt h3⟩
  intro b hb
  rcases List.mem_append.mp hb with hbo | hbn
  · exact h1 b hbo
  · rw [List.mem_singleton] at hbn
    injection hbn with hi _
    rw [hi] at h3
    exact absurd h3 (Nat.lt_irrefl _)

/-- The flush pass preserves deadness and never delivers to a dead
binding, even across mid-cycle callback deactivations. -/
theorem dead_flushAux (cb : Nat → List Nat) :
    ∀ (ids : List Nat) (e : Engine) (bid : Nat), Dead e bid →
      Dead (flushAux cb e ids).1 bid ∧ ∀ v, (bid, v) ∉ (flushAux cb e ids).2 := by
  intro ids
  induction ids with
  | nil =>
    intro e bid hd
    refine ⟨hd, ?_⟩
    intro v hv
    simp [flushAux] at hv
  | cons id0 rest ih =>
    intro e bid hd
    simp only [flushAux]
    cases hf : e.bindings.find? (fun p => p.1 == id0) with
    | none =>
      simp only [hf]
      exact ih e bid hd
    | some p =>
      simp only [hf]
      by_cases hdd : (p.2.active && p.2.dirty) = true
      · simp only [hdd, if_true]
        have hne : id0 ≠ bid := by
          intro he
          subst he
          have hp1 : p.1 = id0 := by simpa using List.find?_some hf
          have hpm : (id0, p.2) ∈ e.bindings := by
            rw [← hp1]
            exact List.mem_of_find?_eq_some hf
          have hact : p.2.active = true := ((Bool.and_eq_true _ _).mp hdd).1
          have hfalse := (hd.1 p.2 hpm).1
          rw [hact] at hfalse
          cases hfalse
        have hd2 : Dead ((cb id0).foldl deactivate (clearDirty e id0)) bid :=
          dead_deactivates (cb id0) (clearDirty e id0) bid (dead_clearDirty e bid id0 hd)
        obtain ⟨hdr, hnr⟩ := ih _ bid hd2
        refine ⟨hdr, ?_⟩
        intro v hv
        rcases List.mem_cons.mp hv with hv1 | hv2
        · injection hv1 with hh _
          exact hne hh.symm
        · exact hnr v hv2
      · simp only [hdd, if_false]
        exact ih e bid hd

/-- The complete flush preserves deadness and adds no delivery for a dead
binding to the log. -/
theorem dead_flush (cb : Nat → List Nat) (e : Engine) (bid : Nat) (hd : Dead e bid) :
    Dead (flush cb e) bid ∧ deliveredCount (flush cb e) bid = deliveredCount e bid := by
  have hd0 : Dead { e with pending := [] } bid :=
    ⟨hd.1, List.not_mem_nil bid, hd.2.2⟩
  obtain ⟨hdr, hnr⟩ := dead_flushAux cb e.pending { e with pending := [] } bid hd0
  refine ⟨hdr, ?_⟩
  show (((flushAux cb { e with pending := [] } e.pending).1.delivered ++
      (flushAux cb { e with pending := [] } e.pending).2).map Prod.fst).count bid
    = deliveredCount e bid
  have hrd : (flushAux cb { e with pending := [] } e.pending).1.delivered = e.delivered :=
    (flushAux_frame cb e.pending { e with pending := [] }).2.2.1
  rw [List.map_append, List.count_append, hrd]
  have hz : (((flushAux cb { e with pending := [] } e.pending).2).map Prod.fst).count bid
      = 0 := by
    rw [List.count_eq_zero]
    intro hmem
    obtain ⟨q, hq, hqi⟩ := List.mem_map.mp hmem
    apply hnr q.2
    rw [← hqi]
    exact hq
  rw [hz, Nat.add_zero]
  rfl

/-- Every engine operation preserves deadness and the dead binding's
delivery count. -/
theorem dead_applyOp (e : Engine) (bid : Nat) (op : Op) (hd : Dead e bid) :
    Dead (applyOp op e) bid ∧
      deliveredCount (applyOp op e) bid = deliveredCount e bid := by
  cases op with
  | set objId name v => exact ⟨dead_setProp e objId name v bid hd, rfl⟩
  | act path root => exact ⟨dead_activate e path root bid hd, rfl⟩
  | deact j => exact ⟨dead_deactivate e bid j hd, rfl⟩
  | doFlush cb => exact dead_flush cb e bid hd

/-- Any sequence of later operations preserves deadness and delivers
nothing further to a dead binding. -/
theorem dead_runOps : ∀ (ops : List Op) (e : Engine) (bid : Nat), Dead e bid →
    Dead (runOps ops e) bid ∧
      deliveredCount (runOps ops e) bid = deliveredCount e bid := by
  intro ops
  induction ops with
  | nil => intro e bid hd; exact ⟨hd, rfl⟩
  | cons op rest ih =>
    intro e bid hd
    obtain ⟨hd1, hc1⟩ := dead_applyOp e bid op hd
    obtain ⟨hd2, hc2⟩ := ih (applyOp op e) bid hd1
    exact ⟨hd2, hc2.trans hc1⟩

/-- Deactivation itself makes the binding dead. -/
theorem dead_after_deactivate (e : Engine) (bid : Nat) (hlt : bid < e.nextId) :
    Dead (deactivate e bid) bid := by
  refine ⟨?_, ?_, hlt⟩
  · intro b hb
    obtain ⟨q, hq, hstep⟩ := List.mem_map.mp hb
    by_cases hk : q.1 = bid
    · rw [if_pos hk] at hstep
      cases hstep
      exact ⟨rfl, rfl, rfl⟩
    · rw [if_neg hk] at hstep
      exfalso
      apply hk
      rw [hstep]
  · intro hmem
    have hne : bid ≠ bid := by simpa using (List.mem_filter.mp hmem).2
    exact hne rfl

/-- C5: after deactivation — including deactivation performed mid-cycle
from within a flush callback, which the flush operation's callback
parameter models — the binding is out of the pending-flush set, its
registration set is empty and it is inactive, and no later sequence of
engine operations (mutations, activations, deactivations, flushes) ever
delivers another notification to it. -/
theorem C5_deactivation_terminal :
    ∀ (e : Engine) (bid : Nat) (b : Binding), (bid, b) ∈ e.bindings → bid < e.nextId →
      bid ∉ (deactivate e bid).pending ∧
      (∀ b', (bid, b') ∈ (deactivate e bid).bindings →
        b'.regs = [] ∧ b'.active = false) ∧
      (∀ ops : List Op,
        deliveredCount (runOps ops (deactivate e bid)) bid
          = deliveredCount (deactivate e bid) bid) := by
  intro e bid b hmem hlt
  have hd := dead_after_deactivate e bid hlt
  refine ⟨hd.2.1, ?_, ?_⟩
  · intro b' hb'
    have hprops := hd.1 b' hb'
    exact ⟨hprops.2.2, hprops.1⟩
  · intro ops
    exact (dead_runOps ops (deactivate e bid) bid hd).2

/-- Witness for C5 on the concrete engine: after deactivating binding 0 it
is no longer pending, and a later mutation plus a flush (whose callback
deactivates whatever it delivers to) deliver nothing to it. -/
theorem C5_deactivation_terminal_witness :
    0 ∉ (deactivate e0 0).pending ∧
    deliveredCount (runOps [Op.set 1 "c" (Value.vPrim 8), Op.doFlush (fun i => [i])]
        (deactivate e0 0)) 0
      = deliveredCount (deactivate e0 0) 0 :=
  ⟨(C5_deactivation_terminal e0 0 b0 (by decide) (by decide)).1,
   (C5_deactivation_terminal e0 0 b0 (by decide) (by decide)).2.2
     [Op.set 1 "c" (Value.vPrim 8), Op.doFlush (fun i => [i])]⟩

end SCRuntime

namespace CoreQuery

/-- C9: `isVisible()` on a matched set returns YES iff every element of
the set satisfies the element-level visibility predicate (not a hidden
input, computed display not "none", computed visibility not "hidden"); on
the empty matched set it returns YES vacuously. -/
theorem C9_isVisible_iff_every_element_visible :
    ∀ (cq : List Elem),
      (isVisible cq = true ↔
        ∀ e ∈ cq, e.type ≠ "hidden" ∧ e.display ≠ "none" ∧ e.visibility ≠ "hidden") ∧
      isVisible [] = true := by
  intro cq
  refine ⟨?_, rfl⟩
  unfold isVisible
  rw [List.all_eq_true]
  constructor
  · intro hall e he
    have h1 := hall e he
    simp only [isVisibleElem, Bool.and_eq_true, bne_iff_ne] at h1
    exact ⟨h1.1.1, h1.1.2, h1.2⟩
  · intro hall e he
    have h1 := hall e he
    simp only [isVisibleElem, Bool.and_eq_true, bne_iff_ne]
    exact ⟨⟨h1.1, h1.2.1⟩, h1.2.2⟩

/-- Splitting a whitespace-free run appends it whole to the current
token. -/
theorem splitAux_no_ws (v : List Char) :
    ∀ cur, (∀ c ∈ v, c.isWhitespace = false) → splitAux cur false v = [cur ++ v] := by
  induction v with
  | nil => intro cur _; simp [splitAux]
  | cons c rest ih =>
    intro cur hws
    have hc : c.isWhitespace = false := hws c (List.mem_cons_self c rest)
    rw [splitAux, hc]
    simp only [Bool.false_eq_true, if_false]
    rw [ih (cur ++ [c]) (fun d hd => hws d (List.mem_cons_of_mem c hd))]
    simp

/-- The splitter never returns an empty list of tokens. -/
theorem splitAux_ne_nil : ∀ (l : List Char) (cur : List Char) (sk : Bool),
    splitAux cur sk l ≠ [] := by
  intro l
  induction l with
  | nil => intro cur sk; simp [splitAux]
  | cons c rest ih =>
    intro cur sk
    rw [splitAux]
    by_cases hc : c.isWhitespace = true
    · cases sk
      · simp only [hc, if_true, Bool.false_eq_true, if_false]
        exact List.cons_ne_nil _ _
      · simp only [hc, if_true, if_pos rfl]
        exact ih [] true
    · simp only [Bool.not_eq_true] at hc
      simp [hc]
      exact ih (cur ++ [c]) false

/-- A whitespace-free nonempty word placed after a space separator is
always one of the split tokens, whatever precedes the separator. -/
theorem mem_splitAux_append (name : List Char) (hne : name ≠ [])
    (hws : ∀ c ∈ name, c.isWhitespace = false) :
    ∀ (w cur : List Char) (skipping : Bool),
      name ∈ splitAux cur skipping (w ++ spaceChar :: name) := by
  intro w
  induction w with
  | nil =>
    intro cur skipping
    obtain ⟨c, name', rfl⟩ : ∃ c name', name = c :: name' := by
      cases name with
      | nil => exact absurd rfl hne
      | cons c n' => exact ⟨c, n', rfl⟩
    rw [List.nil_append]
    have hsp : spaceChar.isWhitespace = true := by decide
    have hc : c.isWhitespace = false := hws c (List.mem_cons_self c name')
    have hrest : splitAux [] true (c :: name') = [c :: name'] := by
      rw [splitAux, hc]
      simp only [Bool.false_eq_true, if_false]
      rw [splitAux_no_ws name' ([] ++ [c])
        (fun d hd => hws d (List.mem_cons_of_mem c hd))]
      simp
    cases skipping
    · rw [splitAux, if_pos hsp, if_neg (by simp), hrest]
      exact List.mem_cons_of_mem _ (List.mem_cons_self _ _)
    · rw [splitAux, if_pos hsp, if_pos rfl, hrest]
      exact List.mem_cons_self _ _
  | cons d w' ih =>
    intro cur skipping
    rw [List.cons_append, splitAux]
    by_cases hd : d.isWhitespace = true
    · cases skipping
      · rw [if_pos hd, if_neg (by simp)]
        exact List.mem_cons_of_mem _ (ih [] true)
      · rw [if_pos hd, if_pos rfl]
        exact ih [] true
    · simp only [Bool.not_eq_true] at hd
      simp only [hd, Bool.false_eq_true, if_false]
      exact ih (cur ++ [d]) false

/-- Joining after appending one token places it after a single space. -/
theorem joinSp_append_singleton (ys : List (List Char)) (hne : ys ≠ [])
    (v : List Char) : joinSp (ys ++ [v]) = joinSp ys ++ spaceChar :: v := by
  cases ys with
  | nil => exact absurd rfl hne
  | cons y0 ys' =>
    show List.foldl _ y0 (ys' ++ [v]) = _
    rw [List.foldl_append]
    rfl

/-- A class name already among the split tokens leaves `setClass`
without anything to change. -/
theorem setClassElem_mem_unchanged (e : Elem) (name : List Char)
    (hmem : name ∈ splitWS e.className) : setClassElem e name true = e := by
  unfold setClassElem
  by_cases hn : e.nodeType ≠ 1
  · simp [hn]
  · simp only [hn, if_false]
    have hfind : ((splitWS e.className).map some).findIdx?
        (fun x => x == some name) ≠ none := by
      intro hnone
      rw [List.findIdx?_eq_none_iff] at hnone
      have := hnone (some name) (List.mem_map_of_mem some hmem)
      simp at this
    cases hidx : ((splitWS e.className).map some).findIdx? (fun x => x == some name) with
    | none => exact absurd hidx hfind
    | some i => simp [fixupClass, hidx]

/-- An absent class name is pushed exactly once by `_fixupClass`. -/
theorem fixupClass_absent (cns : List (Option (List Char))) (name : List Char)
    (habs : some name ∉ cns) :
    fixupClass cns name true = (cns ++ [some name], true) := by
  have hfind : cns.findIdx? (fun x => x == some name) = none := by
    rw [List.findIdx?_eq_none_iff]
    intro x hx
    have : x ≠ some name := fun h => habs (h ▸ hx)
    simpa using this
  simp [fixupClass, hfind]

/-- C10: `setClass(name, YES)` is idempotent for addition — an element
whose class list already contains the name keeps its className string
unchanged and gains no duplicate; an absent name is appended exactly once;
applying the operation twice equals applying it once, elementwise and over
the whole matched set. -/
theorem C10_setClass_add_idempotent :
    ∀ (e : Elem) (name : List Char), name ≠ [] →
      (∀ c ∈ name, c.isWhitespace = false) →
      (name ∈ splitWS e.className → setClassElem e name true = e) ∧
      (name ∉ splitWS e.className →
        (fixupClass ((splitWS e.className).map some) name true).1.count (some name) = 1) ∧
      setClassElem (setClassElem e name true) name true = setClassElem e name true ∧
      (∀ cq : List Elem, setClass (setClass cq name true) name true = setClass cq name true) := by
  intro e name hne hws
  have habs : ∀ (e' : Elem), name ∉ splitWS e'.className →
      some name ∉ (splitWS e'.className).map some := by
    intro e' h hmem
    obtain ⟨y, hy, hyeq⟩ := List.mem_map.mp hmem
    obtain rfl : y = name := Option.some.inj hyeq
    exact h hy
  have hcount : ∀ (e' : Elem), name ∉ splitWS e'.className →
      (fixupClass ((splitWS e'.className).map some) name true).1.count (some name) = 1 := by
    intro e' h
    rw [fixupClass_absent _ _ (habs e' h)]
    simp only [List.count_append]
    rw [List.count_eq_zero.mpr (habs e' h)]
    simp
  have hidem : ∀ (a : Elem), setClassElem (setClassElem a name true) name true =
      setClassElem a name true := by
    intro a
    by_cases hn : a.nodeType ≠ 1
    · have h1 : setClassElem a name true = a := by unfold setClassElem; simp [hn]
      rw [h1, h1]
    · by_cases hmem : name ∈ splitWS a.className
      · rw [setClassElem_mem_unchanged a name hmem,
          setClassElem_mem_unchanged a name hmem]
      · -- the first call appends the name; the second finds it present
        have hfix := fixupClass_absent _ name (habs a hmem)
        have he1 : setClassElem a name true =
            { a with className := joinSp (splitWS a.className ++ [name]) } := by
          have hmap : (((splitWS a.className).map some) ++ [some name]).map
              (fun o => o.getD []) = splitWS a.className ++ [name] := by
            rw [List.map_append, List.map_map]
            have hcomp : ((fun (o : Option (List Char)) => o.getD []) ∘ some) = id := rfl
            rw [hcomp, List.map_id]
            rfl
          simp only [setClassElem, if_neg hn, hfix]
          rw [hmap, if_pos trivial]
        rw [he1]
        apply setClassElem_mem_unchanged
        show name ∈ splitWS (joinSp (splitWS a.className ++ [name]))
        rw [joinSp_append_singleton (splitWS a.className)
          (splitAux_ne_nil a.className [] false) name]
        exact mem_splitAux_append name hne hws (joinSp (splitWS a.className)) [] false
  refine ⟨setClassElem_mem_unchanged e name, hcount e, hidem e, ?_⟩
  intro cq
  unfold setClass
  rw [List.map_map]
  apply List.map_congr_left
  intro a _
  exact hidem a

/-- Replacing the entry of one key in a property table is found by a
lookup for that key exactly when the key was present. -/
theorem find?_map_replace (t : Proto) (k : String) (v : JSVal) :
    (t.map (fun p => if p.1 = k then (k, v) else p)).find? (fun p => p.1 == k)
      = if t.any (fun p => p.1 == k) then some (k, v) else none := by
  induction t with
  | nil => simp
  | cons p rest ih =>
    rw [List.map_cons, List.any_cons]
    by_cases hp : p.1 = k
    · have hp2 : (p.1 == k) = true := by simpa using hp
      rw [if_pos hp, List.find?_cons]
      simp [hp2]
    · have hp' : (p.1 == k) = false := by simpa using hp
      rw [if_neg hp, List.find?_cons, hp', Bool.false_or]
      exact ih

/-- Replacing the entry of one key leaves lookups for other keys
untouched. -/
theorem find?_map_replace_ne (t : Proto) (k : String) (v : JSVal) (k' : String)
    (hne : k' ≠ k) :
    (t.map (fun p => if p.1 = k then (k, v) else p)).find? (fun p => p.1 == k')
      = t.find? (fun p => p.1 == k') := by
  induction t with
  | nil => simp
  | cons p rest ih =>
    rw [List.map_cons]
    by_cases hp : p.1 = k
    · have h1 : (k == k') = false := by simpa using Ne.symm hne
      have h2 : (p.1 == k') = false := by rw [hp]; exact h1
      rw [if_pos hp, List.find?_cons, List.find?_cons]
      simp [h1, h2, ih]
    · rw [if_neg hp, List.find?_cons, List.find?_cons]
      by_cases hq : (p.1 == k') = true
      · simp [hq]
      · have h2 : (p.1 == k') = false := by simpa using hq
        simp [h2, ih]

/-- JavaScript property assignment: reading the assigned key gives the new
value; every other key reads as before. -/
theorem getKey_setKey (t : Proto) (k : String) (v : JSVal) (k' : String) :
    getKey (setKey t k v) k' = if k' = k then some v else getKey t k' := by
  unfold setKey getKey
  by_cases hany : t.any (fun p => p.1 == k) = true
  · rw [if_pos hany]
    by_cases hk : k' = k
    · subst hk
      rw [find?_map_replace, if_pos hany, if_pos rfl]
      rfl
    · rw [find?_map_replace_ne t k v k' hk, if_neg hk]
  · rw [if_neg hany]
    have hnone : t.find? (fun p => p.1 == k) = none := by
      rw [List.find?_eq_none]
      intro x hx
      have := List.any_eq_false.mp (Bool.not_eq_true _ ▸ hany) x hx
      simp [this]
    by_cases hk : k' = k
    · subst hk
      rw [List.find?_append, hnone]
      simp [List.find?_cons]
    · rw [List.find?_append]
      have h2 : List.find? (fun p => p.1 == k') [(k, v)] = none := by
        have h1 : (k == k') = false := by
          simpa using fun h => hk h.symm
        simp [List.find?_cons, h1]
      rw [h2, if_neg hk, Option.or_none]

/-- Folding key-determined assignments over a key list: a key of the list
reads its determined value, any other key reads as before. -/
theorem getKey_foldl_setKey (f : String → JSVal) :
    ∀ (ek : List String) (t : Proto) (k : String),
      getKey (ek.foldl (fun t k' => setKey t k' (f k')) t) k
        = if k ∈ ek then some (f k) else getKey t k := by
  intro ek
  induction ek with
  | nil => intro t k; simp
  | cons k0 rest ih =>
    intro t k
    rw [List.foldl_cons, ih]
    by_cases hk : k ∈ rest
    · rw [if_pos hk, if_pos (List.mem_cons_of_mem _ hk)]
    · rw [if_neg hk, getKey_setKey]
      by_cases hk0 : k = k0
      · subst hk0
        rw [if_pos rfl, if_pos (List.mem_cons_self _ _)]
      · rw [if_neg hk0, if_neg (by simp [hk0, hk])]

/-- `SC.mixin` of a key-determined hash, characterised per key. -/
theorem getKey_mixin_keyed (f : String → JSVal) (keys : List String) (t : Proto)
    (k : String) :
    getKey (mixinProto t (keys.map (fun k' => (k', f k')))) k
      = if k ∈ keys then some (f k) else getKey t k := by
  unfold mixinProto
  rw [List.foldl_map]
  exact getKey_foldl_setKey f keys t k

/-- Per-key characterisation of the whole installation: enumerable keys
win (wrapped when clashing), then plugin keys, and any other key reads
from the external prototype as before. -/
theorem getKey_install (jq : Proto) (ek : List String) (k : String) :
    getKey (installCoreQuery jq ek) k =
      if k ∈ ek then
        some (if wrapperKeys.contains k then JSVal.scWrapper k else JSVal.scEnumerable k)
      else if k ∈ pluginKeys then some (JSVal.scPlugin k)
      else getKey jq k := by
  have h1 : getKey (installCoreQuery jq ek) k
      = if k ∈ ek then
          some (if wrapperKeys.contains k then JSVal.scWrapper k else JSVal.scEnumerable k)
        else getKey (mixinProto jq (pluginKeys.map (fun k' => (k', JSVal.scPlugin k')))) k :=
    getKey_foldl_setKey _ ek _ k
  rw [h1, getKey_mixin_keyed]

/-- Counterexample for C8: the installation does not leave the external
selector engine's prototype object unchanged — on a concrete jQuery
prototype and enumerable key set, the key "isCoreQuery" reads differently
after installation. -/
theorem C8_counterexample_install_not_pure :
    ¬ (∀ k, getKey (installCoreQuery jqFn0 enumKeys0) k = getKey jqFn0 k) := fun hall =>
  absurd (hall "isCoreQuery") (by decide)

/-- C8 (amended): the installation assigns the plugin and enumerable
methods directly onto the external selector engine's prototype object —
enumerable keys are set (replaced by wrappers when they clash), plugin
keys are added, and only keys outside both sets are left unchanged. -/
theorem C8_install_assigns_on_external_prototype :
    ∀ (jq : Proto) (ek : List String) (k : String),
      (k ∉ pluginKeys → k ∉ ek → getKey (installCoreQuery jq ek) k = getKey jq k) ∧
      (k ∈ ek → getKey (installCoreQuery jq ek) k =
        some (if wrapperKeys.contains k then JSVal.scWrapper k else JSVal.scEnumerable k)) ∧
      (k ∈ pluginKeys → k ∉ ek →
        getKey (installCoreQuery jq ek) k = some (JSVal.scPlugin k)) := by
  intro jq ek k
  refine ⟨fun hp he => ?_, fun he => ?_, fun hp he => ?_⟩
  · rw [getKey_install, if_neg he, if_neg hp]
  · rw [getKey_install, if_pos he]
  · rw [getKey_install, if_neg he, if_pos hp]

/-- Witness for the amended C8 on the concrete prototype: an untouched
jQuery method still reads as before, a clashing enumerable key reads as
its wrapper, and a plugin key was added. -/
theorem C8_install_assigns_on_external_prototype_witness :
    getKey (installCoreQuery jqFn0 enumKeys0) "pushStack" = getKey jqFn0 "pushStack" ∧
    getKey (installCoreQuery jqFn0 enumKeys0) "find" = some (JSVal.scWrapper "find") ∧
    getKey (installCoreQuery jqFn0 enumKeys0) "isCoreQuery" =
      some (JSVal.scPlugin "isCoreQuery") :=
  ⟨(C8_install_assigns_on_external_prototype jqFn0 enumKeys0 "pushStack").1
      (by decide) (by decide),
   ((C8_install_assigns_on_external_prototype jqFn0 enumKeys0 "find").2.1
      (by decide)).trans (by decide),
   (C8_install_assigns_on_external_prototype jqFn0 enumKeys0 "isCoreQuery").2.2
      (by decide) (by decide)⟩

/-- Witness for C10 on a concrete element: a present class name leaves the
element unchanged, an absent one is pushed exactly once, and the addition
is idempotent. -/
theorem C10_setClass_add_idempotent_witness :
    setClassElem elemA nameFoo true = elemA ∧
    (fixupClass ((splitWS elemA.className).map some) nameBaz true).1.count
      (some nameBaz) = 1 ∧
    setClassElem (setClassElem elemA nameBaz true) nameBaz true =
      setClassElem elemA nameBaz true :=
  ⟨(C10_setClass_add_idempotent elemA nameFoo (by decide) (by decide)).1 (by decide),
   (C10_setClass_add_idempotent elemA nameBaz (by decide) (by decide)).2.1 (by decide),
   (C10_setClass_add_idempotent elemA nameBaz (by decide) (by decide)).2.2.1⟩

end CoreQuery
